/-
  Verification of the farmer-biogas ABM decision engine (src/agents.py).

  Numbers are modelled as exact rationals (ℚ); every arithmetic operation in
  the source is a field operation, an integer power or a clamp, so the
  translation is exact on rational inputs.
-/
import Mathlib

namespace Biogas

/-! ## Constants of `BiogasPlant` (src/agents.py lines 334-346) -/

def SMALL : ℕ := 1
def MEDIUM : ℕ := 2
def LARGE : ℕ := 3

def MIN_SIZE : ℚ := 75
def MAX_SIZE : ℚ := 850

/-- `KW_PER_LSU = 18 / 100` -/
def KW_PER_LSU : ℚ := 18 / 100

/-- `USE_PIECEWISE_COST_FUNCTION = True` -/
def USE_PIECEWISE_COST_FUNCTION : Bool := true

/-- Python's `max(0.0, min(1.0, x))` clamp used throughout the source. -/
def clamp01 (x : ℚ) : ℚ := max 0 (min 1 x)

/-! ## Plant economics: pure static methods of `BiogasPlant` -/

/-- `BiogasPlant.get_size` (lines 360-369). -/
def get_size (capacity : ℚ) : ℕ :=
  if capacity ≤ 100 then SMALL
  else if capacity ≤ 600 then MEDIUM
  else LARGE

/-- `BiogasPlant.get_kw` (lines 371-379). -/
def get_kw (capacity : ℚ) : ℚ :=
  let default_kw := capacity * KW_PER_LSU
  let factor := (default_kw - 75) / (1000 - 75)
  let factor := if USE_PIECEWISE_COST_FUNCTION then clamp01 factor else factor
  default_kw * (1 + (3 / 10) * factor)

/-- `BiogasPlant.get_plant_cost` (lines 381-393). -/
def get_plant_cost (capacity : ℚ) : ℚ :=
  if USE_PIECEWISE_COST_FUNCTION then
    let factor := clamp01 ((get_kw capacity - 75) / (150 - 75))
    (9000 - factor * (9000 - 6500)) * get_kw capacity
  else
    let cost_per_kw := 11500 - get_kw capacity * 2500 / 75
    cost_per_kw * get_kw capacity

/-- `BiogasPlant.get_stipend` (lines 395-402). -/
def get_stipend (capacity : ℚ) : ℚ :=
  if get_kw capacity ≤ 50 then 27 / 100
  else if get_kw capacity ≤ 100 then 25 / 100
  else 22 / 100

/-- `calculate_utility` (lines 247-301).  The `for years in range(1, n+1)`
accumulation is rendered as a sum over `Finset.Icc 1 n`. -/
def calculate_utility (plant_capacity farmer_farm_size maintenance_costs : ℚ)
    (maintenance_interval : ℤ) (n_owners : ℤ) (plant_lifetime_years : ℕ)
    (discount_rate co_owner_penalty profit_scale_chf biogas_payment_shift : ℚ) : ℚ :=
  if plant_capacity ≤ 0 ∨ farmer_farm_size ≤ 0 then -(10 ^ 9 : ℚ)
  else
    let kw := get_kw plant_capacity
    let annual_kwh := kw * 24 * 365
    let annual_revenue_total :=
      annual_kwh * (get_stipend plant_capacity + biogas_payment_shift)
    let plant_capex_chf := get_plant_cost plant_capacity
    let annual_maintenance_total := maintenance_costs / ((max 1 maintenance_interval : ℤ) : ℚ)
    let share_this_farm := clamp01 (farmer_farm_size / plant_capacity)
    let annual_profit_for_farmer :=
      share_this_farm * (annual_revenue_total - annual_maintenance_total)
    let capex_share_for_farmer := plant_capex_chf / ((max 1 n_owners : ℤ) : ℚ)
    let npv := -capex_share_for_farmer +
      ∑ y in Finset.Icc 1 plant_lifetime_years,
        annual_profit_for_farmer / (1 + discount_rate) ^ y
    let utility_profit := npv / profit_scale_chf
    let utility_co_owners := -co_owner_penalty * ((max 0 (n_owners - 1) : ℤ) : ℚ)
    utility_profit + utility_co_owners

/-! ## The capacity-trimming while loop

`while total > BiogasPlant.MAX_SIZE and pool: removed = pool.pop();
total -= removed.farm_size` — farmers are represented by their `farm_size`.
`pool.pop()` removes the last element of the list. -/

/-- The trimming loop of `_decide_whether_to_build_biogas_plant` (lines
159-161) and `_decide_whether_to_upgrade_biogas_plant` (lines 225-227). -/
def trimLoop (total : ℚ) (pool : List ℚ) : ℚ × List ℚ :=
  if total > MAX_SIZE then
    match pool with
    | [] => (total, [])
    | x :: xs => trimLoop (total - (x :: xs).getLast (by simp)) (x :: xs).dropLast
  else (total, pool)
termination_by pool.length
decreasing_by simp

/-- Python's stable `sorted(pool, key=lambda x: x.farm_size, reverse=True)`. -/
def sortDesc (pool : List ℚ) : List ℚ :=
  pool.mergeSort (fun a b => decide (b ≤ a))

/-- `get_available_LSUs` (lines 325-326): sum of the farm sizes. -/
def get_available_LSUs (pool : List ℚ) : ℚ := pool.sum

/-- Lines 153-161 of `_decide_whether_to_build_biogas_plant`: compute
`available_lsus`, and trim the candidate pool when it exceeds `MAX_SIZE`.
Returns the final `available_lsus` together with the remaining pool. -/
def buildTrim (farm_size : ℚ) (candidates : List ℚ) : ℚ × List ℚ :=
  let available_lsus := get_available_LSUs candidates + farm_size
  if available_lsus > MAX_SIZE then
    trimLoop available_lsus (sortDesc candidates)
  else (available_lsus, candidates)

/-- Lines 220-227 of `_decide_whether_to_upgrade_biogas_plant`: compute
`additional_lsus`, and trim when `additional_lsus + capacity` exceeds
`MAX_SIZE`; the loop itself compares `additional_lsus` alone to `MAX_SIZE`. -/
def upgradeTrim (capacity : ℚ) (candidates : List ℚ) : ℚ × List ℚ :=
  let additional_lsus := get_available_LSUs candidates
  if additional_lsus + capacity > MAX_SIZE then
    trimLoop additional_lsus (sortDesc candidates)
  else (additional_lsus, candidates)

/-! ## The `BiogasPlant` object (lines 329-430)

Contributors are represented by their farm sizes (`ℚ`); the contributor type
is otherwise opaque to every plant operation. -/

structure Plant (α : Type) where
  capacity : ℚ
  contributors : List α
  plant_type : ℕ
  num_upgrades : ℕ

/-- `BiogasPlant.__init__` (lines 348-358): the assert makes construction
fail (`none`) outside `[MIN_SIZE, MAX_SIZE]`. -/
def mkBiogasPlant (contributors : List α) (capacity : ℚ) : Option (Plant α) :=
  if MIN_SIZE ≤ capacity ∧ capacity ≤ MAX_SIZE then
    some { capacity := capacity, contributors := contributors,
           plant_type := get_size capacity, num_upgrades := 0 }
  else none

/-- `BiogasPlant.can_upgrade` (lines 404-405). -/
def can_upgrade (p : Plant α) (additional_capacity : ℚ) : Bool :=
  decide (p.plant_type < get_size (p.capacity + additional_capacity))

/-- `BiogasPlant.upgrade` (lines 407-414): `none` models the failed assert. -/
def upgrade (p : Plant α) (additional_capacity : ℚ) (new_contributors : List α) :
    Option (Plant α) :=
  if can_upgrade p additional_capacity then
    some { capacity := p.capacity + additional_capacity,
           contributors := p.contributors ++ new_contributors,
           plant_type := get_size (p.capacity + additional_capacity),
           num_upgrades := p.num_upgrades + 1 }
  else none

/-- Lines 220-231 of `_decide_whether_to_upgrade_biogas_plant` as one
function: trim the candidate pool against the current plant, then upgrade
when `can_upgrade` holds (the assert inside `upgrade` then passes), else
leave the plant unchanged. -/
def upgradeStep (p : Plant ℚ) (candidates : List ℚ) : Plant ℚ :=
  let r := upgradeTrim p.capacity candidates
  if can_upgrade p r.1 then (upgrade p r.1 r.2).getD p else p

/-- The in-bounds plant of capacity 600 used as a concrete pre-upgrade
state. -/
def plant600 : Plant ℚ :=
  { capacity := 600, contributors := [], plant_type := MEDIUM, num_upgrades := 0 }

/-- Successive states one plant object can go through: creation
(`BiogasPlant.__init__`) followed by successful upgrades — these are the only
mutations of a plant's fields in the source. -/
inductive PlantReachable : Plant ℚ → Prop
  | created (contributors : List ℚ) (capacity : ℚ) (p : Plant ℚ) :
      mkBiogasPlant contributors capacity = some p → PlantReachable p
  | upgraded (p : Plant ℚ) (additional : ℚ) (new_contributors : List ℚ)
      (p' : Plant ℚ) : PlantReachable p →
      upgrade p additional new_contributors = some p' → PlantReachable p'

/-- The amount `BiogasPlant.step` (lines 424-430) adds to the owner's
`money_received`. -/
def step_payment (capacity biogas_payment_shift : ℚ) : ℚ :=
  (get_stipend capacity + biogas_payment_shift) * get_kw capacity * 24 * 365

/-- `BiogasPlant.step`: the owner's `money_received` after the plant's
step, given its value before. -/
def plant_step_money (money_received capacity biogas_payment_shift : ℚ) : ℚ :=
  money_received + step_payment capacity biogas_payment_shift

/-! ## Adoption bookkeeping (Farmer flags, plant contributor lists)

State-machine model of the fields written by `Farmer.build_biogas_plant`
(lines 233-244), `mark_neighbors_as_contributors` (lines 317-322) and the
upgrade commit (lines 229-231) — the only code that writes
`has_biogas_plant`, `contributes_to_biogas_plant`, `time_of_adoption` or a
plant's contributor list.  Farmers are identified by `ℕ`; asserts become
transition guards; the grid is over-approximated: a transition may use any
candidate pool that passes the `get_neighbors_willing_to_contribute` filter
(distinct farmers, not yet contributing, willingness above threshold). -/

structure FarmerSt where
  has_biogas_plant : Bool
  contributes_to_biogas_plant : Bool
  time_of_adoption : Option ℕ
  willingness_to_contribute : ℚ

/-- A simulation state: every farmer's adoption fields plus each live
plant's contributor list. -/
structure SimState where
  farmers : ℕ → FarmerSt
  plants : List (List ℕ)

/-- The filter of `get_neighbors_willing_to_contribute` (lines 305-314)
applied to a pool of distinct grid neighbors. -/
def validPool (s : SimState) (contribute_threshold : ℚ) (P : List ℕ) : Prop :=
  P.Nodup ∧ ∀ j ∈ P, (s.farmers j).contributes_to_biogas_plant = false ∧
    contribute_threshold < (s.farmers j).willingness_to_contribute

/-- Field writes of `mark_neighbors_as_contributors` on one neighbor. -/
def markedFarmer (t : ℕ) (f : FarmerSt) : FarmerSt :=
  { f with contributes_to_biogas_plant := true, time_of_adoption := some t }

/-- Field writes of `build_biogas_plant` on the builder itself. -/
def ownerFarmer (t : ℕ) (f : FarmerSt) : FarmerSt :=
  { f with has_biogas_plant := true, contributes_to_biogas_plant := true,
           time_of_adoption := some t }

/-- Commit of `build_biogas_plant`: a new plant whose contributor list is
the pool, the builder becomes an owner, the pooled neighbors are marked. -/
def commitBuild (s : SimState) (c : ℕ) (P : List ℕ) (t : ℕ) : SimState :=
  { farmers := fun j =>
      if j = c then ownerFarmer t (s.farmers j)
      else if j ∈ P then markedFarmer t (s.farmers j)
      else s.farmers j,
    plants := s.plants ++ [P] }

/-- Commit of a successful upgrade: plant `i`'s contributor list is extended
by the pool and the pooled neighbors are marked. -/
def commitUpgrade (s : SimState) (i : ℕ) (P : List ℕ) (t : ℕ) : SimState :=
  { farmers := fun j =>
      if j ∈ P then markedFarmer t (s.farmers j) else s.farmers j,
    plants := s.plants.set i (s.plants.getD i [] ++ P) }

/-- One adoption-relevant transition at time `t`.  `learn` covers the
belief updates, which touch no adoption field; `build` requires the builder
to be a non-adopter (the dispatch in `Farmer.step`) with
`time_of_adoption = None` (the assert in `build_biogas_plant`); both `build`
and `upgradePlant` require the pool to pass the contribution filter and
every pooled neighbor to satisfy the assert in
`mark_neighbors_as_contributors`. -/
inductive SimStep (contribute_threshold : ℚ) : SimState → ℕ → SimState → Prop
  | learn (s : SimState) (t : ℕ) (j : ℕ) (w : ℚ) :
      SimStep contribute_threshold s t
        { s with farmers := fun k =>
            if k = j then { s.farmers k with willingness_to_contribute := w }
            else s.farmers k }
  | build (s : SimState) (t : ℕ) (c : ℕ) (P : List ℕ) :
      (s.farmers c).has_biogas_plant = false →
      (s.farmers c).contributes_to_biogas_plant = false →
      (s.farmers c).time_of_adoption = none →
      validPool s contribute_threshold P →
      (∀ j ∈ P, (s.farmers j).time_of_adoption = none) →
      SimStep contribute_threshold s t (commitBuild s c P t)
  | upgradePlant (s : SimState) (t : ℕ) (i : ℕ) (P : List ℕ) :
      i < s.plants.length →
      validPool s contribute_threshold P →
      (∀ j ∈ P, (s.farmers j).time_of_adoption = none) →
      SimStep contribute_threshold s t (commitUpgrade s i P t)

/-- The initial states: no plants, every farmer a fresh non-adopter
(`Farmer.__init__`, lines 41-45). -/
def IsInit (s : SimState) : Prop :=
  s.plants = [] ∧ ∀ j, (s.farmers j).has_biogas_plant = false ∧
    (s.farmers j).contributes_to_biogas_plant = false ∧
    (s.farmers j).time_of_adoption = none

/-- States reachable from an initial state by adoption transitions. -/
inductive Reachable (contribute_threshold : ℚ) : SimState → Prop
  | init (s : SimState) : IsInit s → Reachable contribute_threshold s
  | step (s : SimState) (t : ℕ) (s' : SimState) :
      Reachable contribute_threshold s → SimStep contribute_threshold s t s' →
      Reachable contribute_threshold s'

/-- A concrete initial state used by the witnesses. -/
def demoInit : SimState :=
  { farmers := fun _ =>
      { has_biogas_plant := false, contributes_to_biogas_plant := false,
        time_of_adoption := none, willingness_to_contribute := 1 },
    plants := [] }

/-- `demoInit` after farmer 0 builds a plant pooling farmer 1 at time 5. -/
def demoBuilt : SimState := commitBuild demoInit 0 [1] 5

/-! ## Properties of the trimming loop -/

/-- Master specification of the while loop: the final total is within bound or
the pool is exhausted; the surviving pool is a prefix of the input (only tail
elements were popped); each pop subtracted exactly the popped farm size; and
the loop never stopped while the continuation condition still held. -/
theorem trimLoop_spec (total : ℚ) (pool : List ℚ) :
    ((trimLoop total pool).1 ≤ MAX_SIZE ∨ (trimLoop total pool).2 = []) ∧
    (trimLoop total pool).2 <+: pool ∧
    (trimLoop total pool).1 = total - (pool.drop (trimLoop total pool).2.length).sum ∧
    (∀ h : (trimLoop total pool).2.length < pool.length,
      MAX_SIZE < (trimLoop total pool).1 + pool.get ⟨(trimLoop total pool).2.length, h⟩) := by
  induction total, pool using trimLoop.induct with
  | case1 total hgt =>
    rw [trimLoop]
    simp [hgt]
  | case2 total hgt x xs ih =>
    rw [trimLoop]
    simp only [hgt, if_pos]
    obtain ⟨ih1, ih2, ih3, ih4⟩ := ih
    set L := x :: xs with hL
    have hLne : L ≠ [] := by simp [hL]
    have hsplit : L.dropLast ++ [L.getLast hLne] = L := List.dropLast_append_getLast hLne
    set r := trimLoop (total - L.getLast hLne) L.dropLast with hr
    have hmle : r.2.length ≤ L.dropLast.length := ih2.length_le
    refine ⟨ih1, ih2.trans ⟨[L.getLast hLne], hsplit⟩, ?_, ?_⟩
    · have hdrop : L.drop r.2.length = L.dropLast.drop r.2.length ++ [L.getLast hLne] := by
        conv_lhs => rw [← hsplit]
        rw [List.drop_append_of_le_length hmle]
      rw [hdrop]
      simp only [List.sum_append, List.sum_cons, List.sum_nil]
      rw [ih3]
      ring
    · intro h
      rcases lt_or_eq_of_le hmle with hlt | heq
      · have := ih4 hlt
        have hget : L.dropLast.get ⟨r.2.length, hlt⟩ = L.get ⟨r.2.length, h⟩ := by
          simp [List.get_eq_getElem, List.getElem_dropLast]
        rw [← hget]
        exact this
      · have hr2 : r.2 = L.dropLast := ih2.eq_of_length heq
        have hget : L.get ⟨r.2.length, h⟩ = L.getLast hLne := by
          rw [List.get_eq_getElem, List.getLast_eq_getElem]
          congr 1
          simp only [Fin.val_mk]
          rw [heq]
          simp [List.length_dropLast]
        rw [hget, ih3, hr2]
        simp only [List.drop_length, List.sum_nil]
        linarith
  | case3 total pool hle =>
    rw [trimLoop.eq_def]
    rw [if_neg hle]
    push_neg at hle
    refine ⟨Or.inl hle, ⟨[], List.append_nil _⟩, by simp, ?_⟩
    intro h
    simp at h

/-- `sortDesc` really sorts by farm size in descending order. -/
theorem sortDesc_sorted (pool : List ℚ) :
    (sortDesc pool).Pairwise (fun a b => b ≤ a) := by
  have h := @List.sorted_mergeSort ℚ (fun a b => decide (b ≤ a))
    (fun a b c hab hbc => by
      simp only [decide_eq_true_eq] at hab hbc ⊢
      exact hbc.trans hab)
    (fun a b => by
      simp only [Bool.or_eq_true, decide_eq_true_eq]
      exact le_total b a) pool
  simpa using h

/-- `sortDesc` is a permutation of its input. -/
theorem sortDesc_perm (pool : List ℚ) : (sortDesc pool).Perm pool :=
  List.mergeSort_perm pool _

/-- In a descending-sorted list, everything dropped after a prefix is ≤
everything kept in the prefix. -/
theorem sorted_drop_le_kept (l p : List ℚ) (hsort : l.Pairwise (fun a b => b ≤ a))
    (hp : p <+: l) : ∀ a ∈ l.drop p.length, ∀ b ∈ p, a ≤ b := by
  obtain ⟨t, rfl⟩ := hp
  intro a ha b hb
  rw [List.drop_left] at ha
  exact (List.pairwise_append.mp hsort).2.2 b hb a ha

/-- C2: In the build path, for every candidate pool whose summed capacity
(pool plus the deciding farmer's own `farm_size`) exceeds `MAX_SIZE`, the
trimming loop terminates (it is a total function, by descent on the pool
length); at each iteration it removes the smallest remaining candidate — the
surviving pool is a prefix of the descending `farm_size` sort and every
removed size is ≤ every kept size — and subtracts its `farm_size`; and it
stops exactly when the running total is ≤ `MAX_SIZE` or the pool is empty:
the final total satisfies the stop condition, and just before the last
removal the total still exceeded `MAX_SIZE`. -/
theorem build_trim_correct (farm_size : ℚ) (candidates : List ℚ)
    (hover : get_available_LSUs candidates + farm_size > MAX_SIZE) :
    ((buildTrim farm_size candidates).1 ≤ MAX_SIZE ∨
      (buildTrim farm_size candidates).2 = []) ∧
    (buildTrim farm_size candidates).2 <+: sortDesc candidates ∧
    (∀ a ∈ (sortDesc candidates).drop (buildTrim farm_size candidates).2.length,
      ∀ b ∈ (buildTrim farm_size candidates).2, a ≤ b) ∧
    (buildTrim farm_size candidates).1 =
      get_available_LSUs candidates + farm_size
        - ((sortDesc candidates).drop (buildTrim farm_size candidates).2.length).sum ∧
    (∀ h : (buildTrim farm_size candidates).2.length < (sortDesc candidates).length,
      MAX_SIZE < (buildTrim farm_size candidates).1 +
        (sortDesc candidates).get ⟨(buildTrim farm_size candidates).2.length, h⟩) := by
  have hb : buildTrim farm_size candidates
      = trimLoop (get_available_LSUs candidates + farm_size) (sortDesc candidates) := by
    rw [buildTrim]
    simp only [hover, if_pos]
  rw [hb]
  obtain ⟨h1, h2, h3, h4⟩ := trimLoop_spec (get_available_LSUs candidates + farm_size)
    (sortDesc candidates)
  exact ⟨h1, h2, sorted_drop_le_kept _ _ (sortDesc_sorted candidates) h2, h3, h4⟩

/-- Witness for C2 at `farm_size = 100`, candidates `[500, 300, 200]`. -/
theorem build_trim_correct_witness :
    get_available_LSUs [500, 300, 200] + 100 > MAX_SIZE ∧
    (((buildTrim 100 [500, 300, 200]).1 ≤ MAX_SIZE ∨
      (buildTrim 100 [500, 300, 200]).2 = []) ∧
    (buildTrim 100 [500, 300, 200]).2 <+: sortDesc [500, 300, 200] ∧
    (∀ a ∈ (sortDesc [500, 300, 200]).drop (buildTrim 100 [500, 300, 200]).2.length,
      ∀ b ∈ (buildTrim 100 [500, 300, 200]).2, a ≤ b) ∧
    (buildTrim 100 [500, 300, 200]).1 =
      get_available_LSUs [500, 300, 200] + 100
        - ((sortDesc [500, 300, 200]).drop (buildTrim 100 [500, 300, 200]).2.length).sum ∧
    (∀ h : (buildTrim 100 [500, 300, 200]).2.length < (sortDesc [500, 300, 200]).length,
      MAX_SIZE < (buildTrim 100 [500, 300, 200]).1 +
        (sortDesc [500, 300, 200]).get ⟨(buildTrim 100 [500, 300, 200]).2.length, h⟩)) :=
  ⟨by norm_num [get_available_LSUs, MAX_SIZE],
   build_trim_correct 100 [500, 300, 200] (by norm_num [get_available_LSUs, MAX_SIZE])⟩

/-- C3: In the upgrade path, whenever `additional_capacity` plus the current
plant capacity exceeds `MAX_SIZE`, the trimming loop is entered, and its
continuation condition compares `additional_capacity` alone against
`MAX_SIZE`: in particular, when `additional_capacity ≤ MAX_SIZE` the loop
pops nothing at all even though the combined total exceeds `MAX_SIZE`; in
general it pops the smallest remaining candidate (tail of the descending
sort) while `additional_capacity > MAX_SIZE` and the pool is non-empty. -/
theorem upgrade_trim_checks_additional_alone (capacity : ℚ) (candidates : List ℚ)
    (hover : get_available_LSUs candidates + capacity > MAX_SIZE) :
    upgradeTrim capacity candidates
      = trimLoop (get_available_LSUs candidates) (sortDesc candidates) ∧
    (get_available_LSUs candidates ≤ MAX_SIZE →
      upgradeTrim capacity candidates = (get_available_LSUs candidates, sortDesc candidates)) ∧
    ((upgradeTrim capacity candidates).1 ≤ MAX_SIZE ∨
      (upgradeTrim capacity candidates).2 = []) ∧
    (upgradeTrim capacity candidates).2 <+: sortDesc candidates ∧
    (∀ a ∈ (sortDesc candidates).drop (upgradeTrim capacity candidates).2.length,
      ∀ b ∈ (upgradeTrim capacity candidates).2, a ≤ b) := by
  have hu : upgradeTrim capacity candidates
      = trimLoop (get_available_LSUs candidates) (sortDesc candidates) := by
    rw [upgradeTrim]
    simp only [hover, if_pos]
  refine ⟨hu, ?_, ?_⟩
  · intro hle
    rw [hu, trimLoop.eq_def, if_neg (by push_neg; exact hle)]
  · rw [hu]
    obtain ⟨h1, h2, _, _⟩ := trimLoop_spec (get_available_LSUs candidates) (sortDesc candidates)
    exact ⟨h1, h2, sorted_drop_le_kept _ _ (sortDesc_sorted candidates) h2⟩

/-- Witness for C3 at `capacity = 600`, candidates `[500]` (combined total
1100 > 850 but the loop removes nothing since 500 ≤ 850). -/
theorem upgrade_trim_checks_additional_alone_witness :
    get_available_LSUs [500] + 600 > MAX_SIZE ∧
    (upgradeTrim 600 [500]
      = trimLoop (get_available_LSUs [500]) (sortDesc [500]) ∧
    (get_available_LSUs [500] ≤ MAX_SIZE →
      upgradeTrim 600 [500] = (get_available_LSUs [500], sortDesc [500])) ∧
    ((upgradeTrim 600 [500]).1 ≤ MAX_SIZE ∨ (upgradeTrim 600 [500]).2 = []) ∧
    (upgradeTrim 600 [500]).2 <+: sortDesc [500] ∧
    (∀ a ∈ (sortDesc [500]).drop (upgradeTrim 600 [500]).2.length,
      ∀ b ∈ (upgradeTrim 600 [500]).2, a ≤ b)) :=
  ⟨by norm_num [get_available_LSUs, MAX_SIZE],
   upgrade_trim_checks_additional_alone 600 [500]
     (by norm_num [get_available_LSUs, MAX_SIZE])⟩

/-! ## Economics lemmas -/

theorem clamp01_nonneg (x : ℚ) : 0 ≤ clamp01 x := le_max_left 0 _

theorem clamp01_le_one (x : ℚ) : clamp01 x ≤ 1 :=
  max_le (by norm_num) (min_le_left 1 x)

theorem get_kw_nonneg (c : ℚ) (hc : 0 ≤ c) : 0 ≤ get_kw c := by
  rw [get_kw]
  simp only [USE_PIECEWISE_COST_FUNCTION, if_pos]
  have h1 : 0 ≤ c * KW_PER_LSU := by
    apply mul_nonneg hc
    norm_num [KW_PER_LSU]
  have h2 : 0 ≤ clamp01 ((c * KW_PER_LSU - 75) / (1000 - 75)) := clamp01_nonneg _
  nlinarith

/-- C4: `calculate_utility` returns the sentinel −1e9 whenever
`plant_capacity ≤ 0` or `farmer_farm_size ≤ 0`, for every choice of the
remaining parameters. -/
theorem calculate_utility_degenerate (plant_capacity farmer_farm_size maintenance_costs : ℚ)
    (maintenance_interval n_owners : ℤ) (plant_lifetime_years : ℕ)
    (discount_rate co_owner_penalty profit_scale_chf biogas_payment_shift : ℚ)
    (h : plant_capacity ≤ 0 ∨ farmer_farm_size ≤ 0) :
    calculate_utility plant_capacity farmer_farm_size maintenance_costs
      maintenance_interval n_owners plant_lifetime_years discount_rate
      co_owner_penalty profit_scale_chf biogas_payment_shift = -(10 ^ 9 : ℚ) := by
  rw [calculate_utility, if_pos h]

/-- Witness for C4 at `capacity = 0` (and separately `farm_size = 0`),
arbitrary other parameters. -/
theorem calculate_utility_degenerate_witness :
    ((0 : ℚ) ≤ 0 ∨ (50 : ℚ) ≤ 0) ∧
    calculate_utility 0 50 1000 1 1 20 (4 / 100) (1 / 10) 100000 0 = -(10 ^ 9 : ℚ) ∧
    (((100 : ℚ) ≤ 0 ∨ (0 : ℚ) ≤ 0) ∧
      calculate_utility 100 0 1000 1 1 20 (4 / 100) (1 / 10) 100000 0 = -(10 ^ 9 : ℚ)) :=
  ⟨Or.inl le_rfl,
   calculate_utility_degenerate 0 50 1000 1 1 20 (4 / 100) (1 / 10) 100000 0
     (Or.inl le_rfl),
   Or.inr le_rfl,
   calculate_utility_degenerate 100 0 1000 1 1 20 (4 / 100) (1 / 10) 100000 0
     (Or.inr le_rfl)⟩

/-! ## Plant lifecycle lemmas -/

/-- C6: `can_upgrade` is true iff the size class of
`capacity + additional_capacity` strictly exceeds the current `plant_type`
(with `SMALL < MEDIUM < LARGE`); `upgrade` fails when `can_upgrade` is
false, and otherwise adds the capacity, appends the new contributors,
recomputes `plant_type` from the thresholds (≤100 SMALL, ≤600 MEDIUM, else
LARGE) and increments `num_upgrades` by 1. -/
theorem upgrade_spec (p : Plant ℚ) (additional : ℚ) (new_contributors : List ℚ) :
    (can_upgrade p additional = true ↔
      p.plant_type < get_size (p.capacity + additional)) ∧
    (SMALL < MEDIUM ∧ MEDIUM < LARGE) ∧
    (can_upgrade p additional = false → upgrade p additional new_contributors = none) ∧
    (can_upgrade p additional = true →
      upgrade p additional new_contributors = some
        { capacity := p.capacity + additional,
          contributors := p.contributors ++ new_contributors,
          plant_type := get_size (p.capacity + additional),
          num_upgrades := p.num_upgrades + 1 }) ∧
    (∀ c : ℚ, get_size c =
      if c ≤ 100 then SMALL else if c ≤ 600 then MEDIUM else LARGE) := by
  refine ⟨by simp [can_upgrade], by norm_num [SMALL, MEDIUM, LARGE], ?_, ?_, fun c => rfl⟩
  · intro h
    simp [upgrade, h]
  · intro h
    simp [upgrade, h]

/-- Witness for C6 (the statement has implications as conjuncts) at the
concrete plant `plant600`, `additional = 500`. -/
theorem upgrade_spec_witness :
    (can_upgrade plant600 500 = true ↔
      plant600.plant_type < get_size (plant600.capacity + 500)) ∧
    (SMALL < MEDIUM ∧ MEDIUM < LARGE) ∧
    (can_upgrade plant600 500 = false → upgrade plant600 500 [500] = none) ∧
    (can_upgrade plant600 500 = true →
      upgrade plant600 500 [500] = some
        { capacity := plant600.capacity + 500,
          contributors := plant600.contributors ++ [500],
          plant_type := get_size (plant600.capacity + 500),
          num_upgrades := plant600.num_upgrades + 1 }) ∧
    (∀ c : ℚ, get_size c =
      if c ≤ 100 then SMALL else if c ≤ 600 then MEDIUM else LARGE) :=
  upgrade_spec plant600 500 [500]

theorem get_size_bounds (c : ℚ) : 1 ≤ get_size c ∧ get_size c ≤ 3 := by
  rw [get_size]
  split
  · simp [SMALL]
  · split <;> simp [MEDIUM, LARGE]

/-- The inductive invariant behind C10: a live plant's `plant_type` always
strictly exceeds its `num_upgrades`, and `plant_type` never exceeds
`LARGE = 3`. -/
theorem plantReachable_inv (p : Plant ℚ) (h : PlantReachable p) :
    p.num_upgrades + 1 ≤ p.plant_type ∧ p.plant_type ≤ 3 := by
  induction h with
  | created contributors capacity p hmk =>
    rw [mkBiogasPlant] at hmk
    split at hmk
    · cases hmk
      simpa using get_size_bounds capacity
    · cases hmk
  | upgraded p add nc p' hp hup ih =>
    rw [upgrade] at hup
    split at hup
    case isTrue hcan =>
      cases hup
      simp only [can_upgrade, decide_eq_true_eq] at hcan
      have := get_size_bounds (p.capacity + add)
      constructor
      · simp only []
        omega
      · exact this.2
    case isFalse => cases hup

/-- C10: every live plant has `num_upgrades ≤ 2`, because each successful
upgrade strictly increases the size class within SMALL < MEDIUM < LARGE. -/
theorem num_upgrades_le_two (p : Plant ℚ) (h : PlantReachable p) :
    p.num_upgrades ≤ 2 := by
  obtain ⟨h1, h2⟩ := plantReachable_inv p h
  omega

/-- Witness for C10 at the freshly created plant `plant600`. -/
theorem num_upgrades_le_two_witness :
    PlantReachable plant600 ∧ plant600.num_upgrades ≤ 2 :=
  ⟨PlantReachable.created [] 600 plant600
     (by norm_num [mkBiogasPlant, MIN_SIZE, MAX_SIZE, plant600, get_size, MEDIUM]),
   num_upgrades_le_two plant600
     (PlantReachable.created [] 600 plant600
       (by norm_num [mkBiogasPlant, MIN_SIZE, MAX_SIZE, plant600, get_size, MEDIUM]))⟩

/-! ## Monotonicity of utility in the tariff shift (C5) -/

/-- Closed form of `calculate_utility` on non-degenerate inputs. -/
theorem calculate_utility_eq (pc fs mc : ℚ) (mi no : ℤ) (pl : ℕ)
    (dr cp ps s : ℚ) (h : ¬(pc ≤ 0 ∨ fs ≤ 0)) :
    calculate_utility pc fs mc mi no pl dr cp ps s =
      (-(get_plant_cost pc / ((max 1 no : ℤ) : ℚ)) +
        ∑ y in Finset.Icc 1 pl,
          clamp01 (fs / pc) *
              (get_kw pc * 24 * 365 * (get_stipend pc + s)
                - mc / ((max 1 mi : ℤ) : ℚ))
            / (1 + dr) ^ y) / ps +
      -cp * ((max 0 (no - 1) : ℤ) : ℚ) := by
  rw [calculate_utility, if_neg h]

/-- C5 counterexample: the claim quantifies over all fixed values of the
remaining parameters; with `profit_scale_chf = -1` (all else default-like:
capacity 100, farm size 50, no maintenance, one owner, one-year lifetime,
zero discount rate and co-owner penalty), raising the shift from 0 to 1
strictly lowers the utility. -/
theorem utility_not_monotone_in_shift_cx :
    (0 : ℚ) ≤ 1 ∧
    ¬ (calculate_utility 100 50 0 1 1 1 0 0 (-1) 0 ≤
       calculate_utility 100 50 0 1 1 1 0 0 (-1) 1) := by
  constructor
  · norm_num
  · norm_num [calculate_utility, get_kw, get_stipend, get_plant_cost, clamp01,
      KW_PER_LSU, USE_PIECEWISE_COST_FUNCTION, Finset.Icc_self, Finset.sum_singleton]

/-- C5 (amended): `calculate_utility` is monotone non-decreasing in
`biogas_payment_shift` for all fixed values of the other parameters with
`profit_scale_chf > 0` and `discount_rate > -1` (both true of every model
configuration: defaults 100000.0 and 0.04); with a negative profit scale or
a discount rate below -1 the monotonicity can reverse. -/
theorem utility_monotone_in_shift (pc fs mc : ℚ) (mi no : ℤ) (pl : ℕ)
    (dr cp ps s1 s2 : ℚ) (hdr : -1 < dr) (hps : 0 < ps) (hs : s1 ≤ s2) :
    calculate_utility pc fs mc mi no pl dr cp ps s1 ≤
    calculate_utility pc fs mc mi no pl dr cp ps s2 := by
  by_cases h : pc ≤ 0 ∨ fs ≤ 0
  · rw [calculate_utility, if_pos h, calculate_utility, if_pos h]
  · rw [calculate_utility_eq pc fs mc mi no pl dr cp ps s1 h,
        calculate_utility_eq pc fs mc mi no pl dr cp ps s2 h]
    have hpc : 0 < pc := by
      push_neg at h
      exact h.1
    have hclamp : 0 ≤ clamp01 (fs / pc) := clamp01_nonneg _
    have hK : 0 ≤ get_kw pc * 24 * 365 := by
      have := get_kw_nonneg pc hpc.le
      linarith
    have hterm : ∀ y ∈ Finset.Icc 1 pl,
        clamp01 (fs / pc) *
            (get_kw pc * 24 * 365 * (get_stipend pc + s1)
              - mc / ((max 1 mi : ℤ) : ℚ)) / (1 + dr) ^ y ≤
        clamp01 (fs / pc) *
            (get_kw pc * 24 * 365 * (get_stipend pc + s2)
              - mc / ((max 1 mi : ℤ) : ℚ)) / (1 + dr) ^ y := by
      intro y hy
      have hpow : (0 : ℚ) < (1 + dr) ^ y := pow_pos (by linarith) y
      have hnum : clamp01 (fs / pc) *
          (get_kw pc * 24 * 365 * (get_stipend pc + s1)
            - mc / ((max 1 mi : ℤ) : ℚ)) ≤
          clamp01 (fs / pc) *
          (get_kw pc * 24 * 365 * (get_stipend pc + s2)
            - mc / ((max 1 mi : ℤ) : ℚ)) := by
        apply mul_le_mul_of_nonneg_left _ hclamp
        nlinarith [mul_nonneg hK (sub_nonneg.mpr hs)]
      exact div_le_div_of_nonneg_right hnum hpow.le
    have hsum := Finset.sum_le_sum hterm
    have hdiv :
        (-(get_plant_cost pc / ((max 1 no : ℤ) : ℚ)) +
          ∑ y in Finset.Icc 1 pl,
            clamp01 (fs / pc) *
                (get_kw pc * 24 * 365 * (get_stipend pc + s1)
                  - mc / ((max 1 mi : ℤ) : ℚ)) / (1 + dr) ^ y) / ps ≤
        (-(get_plant_cost pc / ((max 1 no : ℤ) : ℚ)) +
          ∑ y in Finset.Icc 1 pl,
            clamp01 (fs / pc) *
                (get_kw pc * 24 * 365 * (get_stipend pc + s2)
                  - mc / ((max 1 mi : ℤ) : ℚ)) / (1 + dr) ^ y) / ps := by
      gcongr
    linarith

/-- Witness for C5 (amended) at concrete parameters with positive profit
scale: shift 0 versus shift 1. -/
theorem utility_monotone_in_shift_witness :
    (-1 : ℚ) < 4 / 100 ∧ (0 : ℚ) < 100000 ∧ (0 : ℚ) ≤ 1 ∧
    calculate_utility 100 50 1000 1 2 20 (4 / 100) (1 / 10) 100000 0 ≤
    calculate_utility 100 50 1000 1 2 20 (4 / 100) (1 / 10) 100000 1 :=
  ⟨by norm_num, by norm_num, by norm_num,
   utility_monotone_in_shift 100 50 1000 1 2 20 (4 / 100) (1 / 10) 100000 0 1
     (by norm_num) (by norm_num) (by norm_num)⟩

/-! ## Capacity bounds across the upgrade path (C1) -/

theorem upgradeTrim_eq (capacity : ℚ) (candidates : List ℚ) :
    upgradeTrim capacity candidates =
      if get_available_LSUs candidates + capacity > MAX_SIZE then
        trimLoop (get_available_LSUs candidates) (sortDesc candidates)
      else (get_available_LSUs candidates, candidates) := rfl

theorem upgradeStep_eq (p : Plant ℚ) (candidates : List ℚ) :
    upgradeStep p candidates =
      if can_upgrade p (upgradeTrim p.capacity candidates).1 then
        (upgrade p (upgradeTrim p.capacity candidates).1
          (upgradeTrim p.capacity candidates).2).getD p
      else p := rfl

/-- The additional capacity the upgrade path passes is between 0 and
`MAX_SIZE` whenever the candidate farm sizes are nonnegative. -/
theorem upgradeTrim_fst_bounds (capacity : ℚ) (candidates : List ℚ)
    (hcap : 0 ≤ capacity) (hnn : ∀ c ∈ candidates, 0 ≤ c) :
    0 ≤ (upgradeTrim capacity candidates).1 ∧
    (upgradeTrim capacity candidates).1 ≤ MAX_SIZE := by
  have hsum : (sortDesc candidates).sum = get_available_LSUs candidates :=
    (sortDesc_perm candidates).sum_eq
  have hsortnn : ∀ c ∈ sortDesc candidates, 0 ≤ c := fun c hc =>
    hnn c ((sortDesc_perm candidates).mem_iff.mp hc)
  rw [upgradeTrim_eq]
  split
  case isTrue hgt =>
    obtain ⟨h1, h2, h3, -⟩ :=
      trimLoop_spec (get_available_LSUs candidates) (sortDesc candidates)
    set r := trimLoop (get_available_LSUs candidates) (sortDesc candidates) with hr
    have hsplit : ((sortDesc candidates).take r.2.length).sum
        + ((sortDesc candidates).drop r.2.length).sum
        = get_available_LSUs candidates := by
      rw [← List.sum_append, List.take_append_drop, hsum]
    have htake : 0 ≤ ((sortDesc candidates).take r.2.length).sum :=
      List.sum_nonneg (fun c hc => hsortnn c (List.mem_of_mem_take hc))
    constructor
    · rw [h3]
      linarith
    · rcases h1 with hle | hempty
      · exact hle
      · rw [h3, hempty]
        simp only [List.length_nil, List.drop_zero]
        rw [hsum]
        norm_num [MAX_SIZE]
  case isFalse hle =>
    push_neg at hle
    have h0 : 0 ≤ get_available_LSUs candidates := List.sum_nonneg hnn
    exact ⟨h0, by linarith⟩

/-- C1 (amended): the bound `[MIN_SIZE, MAX_SIZE]` holds at plant creation;
a successful upgrade (with the nonnegative farm sizes the path passes)
preserves the lower bound and adds at most `MAX_SIZE` of capacity, but the
post-upgrade capacity can exceed `MAX_SIZE`, since the trimming loop bounds
only the additional capacity. -/
theorem plant_capacity_bounds (contributors : List ℚ) (capacity : ℚ) (p : Plant ℚ)
    (hmk : mkBiogasPlant contributors capacity = some p) :
    (MIN_SIZE ≤ p.capacity ∧ p.capacity ≤ MAX_SIZE) ∧
    (∀ candidates : List ℚ, (∀ c ∈ candidates, 0 ≤ c) →
      MIN_SIZE ≤ (upgradeStep p candidates).capacity ∧
      (upgradeStep p candidates).capacity ≤ p.capacity + MAX_SIZE) := by
  have hbounds : MIN_SIZE ≤ p.capacity ∧ p.capacity ≤ MAX_SIZE := by
    rw [mkBiogasPlant] at hmk
    split at hmk
    case isTrue hb => cases hmk; exact hb
    case isFalse => cases hmk
  refine ⟨hbounds, fun candidates hnn => ?_⟩
  have hM0 : (0 : ℚ) ≤ MAX_SIZE := by norm_num [MAX_SIZE]
  have hcap0 : 0 ≤ p.capacity := by
    have h75 : (75 : ℚ) ≤ p.capacity := by
      have := hbounds.1
      rwa [MIN_SIZE] at this
    linarith
  obtain ⟨ht0, htM⟩ := upgradeTrim_fst_bounds p.capacity candidates hcap0 hnn
  rw [upgradeStep_eq]
  split
  case isTrue hcan =>
    rw [upgrade, if_pos hcan]
    simp only [Option.getD_some]
    exact ⟨by linarith [hbounds.1], by linarith⟩
  case isFalse =>
    exact ⟨hbounds.1, by linarith⟩

/-- C1 counterexample: a plant legally created at capacity 600 (in bounds)
is offered a candidate pool of one 500-LSU farm; the upgrade path passes
`additional_capacity = 500` untrimmed (since 500 ≤ MAX_SIZE, even though
600 + 500 > MAX_SIZE), `can_upgrade` holds, and the successful upgrade
leaves the live plant at capacity 1100 > MAX_SIZE = 850. -/
theorem upgrade_breaks_capacity_bound_cx :
    mkBiogasPlant ([] : List ℚ) 600 = some plant600 ∧
    (upgradeStep plant600 [500]).capacity = 1100 ∧
    ¬ ((upgradeStep plant600 [500]).capacity ≤ MAX_SIZE) := by
  have h1 : mkBiogasPlant ([] : List ℚ) 600 = some plant600 := by
    norm_num [mkBiogasPlant, MIN_SIZE, MAX_SIZE, plant600, get_size, MEDIUM]
  have htrim : upgradeTrim plant600.capacity [500] = (500, [500]) := by
    rw [upgradeTrim_eq]
    norm_num [get_available_LSUs, MAX_SIZE, plant600, sortDesc,
      List.mergeSort_singleton, trimLoop]
  have hstep : (upgradeStep plant600 [500]).capacity = 1100 := by
    rw [upgradeStep_eq, htrim]
    norm_num [can_upgrade, upgrade, plant600, get_size, MEDIUM, SMALL, LARGE]
  refine ⟨h1, hstep, ?_⟩
  rw [hstep]
  norm_num [MAX_SIZE]

/-- Witness for C1 (amended) at the concrete creation of `plant600` and the
nonnegative pool `[500]`. -/
theorem plant_capacity_bounds_witness :
    mkBiogasPlant ([] : List ℚ) 600 = some plant600 ∧
    ((MIN_SIZE ≤ plant600.capacity ∧ plant600.capacity ≤ MAX_SIZE) ∧
    (∀ candidates : List ℚ, (∀ c ∈ candidates, 0 ≤ c) →
      MIN_SIZE ≤ (upgradeStep plant600 candidates).capacity ∧
      (upgradeStep plant600 candidates).capacity ≤ plant600.capacity + MAX_SIZE)) :=
  ⟨by norm_num [mkBiogasPlant, MIN_SIZE, MAX_SIZE, plant600, get_size, MEDIUM],
   plant_capacity_bounds [] 600 plant600
     (by norm_num [mkBiogasPlant, MIN_SIZE, MAX_SIZE, plant600, get_size, MEDIUM])⟩

/-! ## Plant step payout (C9) -/

/-- C9 counterexample: the claim quantifies over all model parameters
including `biogas_payment_shift`; with `biogas_payment_shift = -1` (so that
the effective tariff `0.27 - 1` is negative) one `BiogasPlant.step` on a
live plant of capacity 100 strictly decreases the owner's `money_received`
from 0. -/
theorem money_received_decreases_cx : plant_step_money 0 100 (-1) < 0 := by
  norm_num [plant_step_money, step_payment, get_stipend, get_kw, clamp01,
    KW_PER_LSU, USE_PIECEWISE_COST_FUNCTION]

/-- C9 (amended): `money_received` never decreases across a plant step
provided the effective tariff `get_stipend capacity + biogas_payment_shift`
is nonnegative (true for every shift ≥ −0.22 and in particular for the
default shift 0); a sufficiently negative shift makes the payout negative. -/
theorem money_received_monotone (money capacity shift : ℚ)
    (hcap : 0 ≤ capacity) (hshift : 0 ≤ get_stipend capacity + shift) :
    money ≤ plant_step_money money capacity shift := by
  rw [plant_step_money, step_payment]
  have hkw := get_kw_nonneg capacity hcap
  nlinarith

/-- Witness for C9 (amended) at `money = 0`, `capacity = 100`, `shift = 0`. -/
theorem money_received_monotone_witness :
    (0 : ℚ) ≤ 100 ∧ 0 ≤ get_stipend 100 + 0 ∧
    (0 : ℚ) ≤ plant_step_money 0 100 0 :=
  ⟨by norm_num,
   by norm_num [get_stipend, get_kw, clamp01, KW_PER_LSU, USE_PIECEWISE_COST_FUNCTION],
   money_received_monotone 0 100 0 (by norm_num)
     (by norm_num [get_stipend, get_kw, clamp01, KW_PER_LSU, USE_PIECEWISE_COST_FUNCTION])⟩

/-! ## Adoption invariants (C7, C8) -/

/-- The adoption-flag invariant: `time_of_adoption` is non-null exactly for
owners and contributors, at every reachable state. -/
theorem adoption_inv (θ : ℚ) (s : SimState) (h : Reachable θ s) : ∀ j,
    ((s.farmers j).time_of_adoption ≠ none ↔
      ((s.farmers j).has_biogas_plant = true ∨
       (s.farmers j).contributes_to_biogas_plant = true)) := by
  induction h with
  | init s hs =>
    intro j
    obtain ⟨h1, h2, h3⟩ := hs.2 j
    simp [h1, h2, h3]
  | step s t s' hr hstep ih =>
    intro j
    cases hstep with
    | learn k w =>
      simp only []
      by_cases hjk : j = k
      · subst hjk
        simpa using ih j
      · simp only [if_neg hjk]
        exact ih j
    | build c P hhas hcontrib htoa hpool hmark =>
      simp only [commitBuild]
      by_cases hjc : j = c
      · simp [hjc, ownerFarmer]
      · simp only [if_neg hjc]
        by_cases hjP : j ∈ P
        · simp [hjP, markedFarmer]
        · simp only [if_neg hjP]
          exact ih j
    | upgradePlant i P hi hpool hmark =>
      simp only [commitUpgrade]
      by_cases hjP : j ∈ P
      · simp [hjP, markedFarmer]
      · simp only [if_neg hjP]
        exact ih j

/-- A non-null `time_of_adoption` survives every transition unchanged: each
operation that writes it is guarded by the source's
`assert ... time_of_adoption is None`. -/
theorem toa_write_once (θ : ℚ) (s : SimState) (t : ℕ) (s' : SimState) (j : ℕ)
    (x : ℕ) (hstep : SimStep θ s t s')
    (hx : (s.farmers j).time_of_adoption = some x) :
    (s'.farmers j).time_of_adoption = some x := by
  cases hstep with
  | learn k w =>
    simp only []
    by_cases hjk : j = k
    · subst hjk
      simpa using hx
    · simp only [if_neg hjk]
      exact hx
  | build c P hhas hcontrib htoa hpool hmark =>
    simp only [commitBuild]
    by_cases hjc : j = c
    · subst hjc
      rw [htoa] at hx
      cases hx
    · simp only [if_neg hjc]
      by_cases hjP : j ∈ P
      · rw [hmark j hjP] at hx
        cases hx
      · simp only [if_neg hjP]
        exact hx
  | upgradePlant i P hi hpool hmark =>
    simp only [commitUpgrade]
    by_cases hjP : j ∈ P
    · rw [hmark j hjP] at hx
      cases hx
    · simp only [if_neg hjP]
      exact hx

/-- C7: at every reachable state, `time_of_adoption` is non-null iff the
farmer owns or contributes to a plant; and `time_of_adoption` is written at
most once — every transition preserves an already-set value, because every
operation that sets it first checks it is null (the asserts in
`build_biogas_plant` and `mark_neighbors_as_contributors`). -/
theorem time_of_adoption_invariant (θ : ℚ) (s : SimState) (h : Reachable θ s) :
    (∀ j, ((s.farmers j).time_of_adoption ≠ none ↔
      ((s.farmers j).has_biogas_plant = true ∨
       (s.farmers j).contributes_to_biogas_plant = true))) ∧
    (∀ t s' j x, SimStep θ s t s' → (s.farmers j).time_of_adoption = some x →
      (s'.farmers j).time_of_adoption = some x) :=
  ⟨adoption_inv θ s h,
   fun t s' j x hstep hx => toa_write_once θ s t s' j x hstep hx⟩

/-- `demoBuilt` is reachable: one build transition out of `demoInit`. -/
theorem demoBuilt_reachable : Reachable 0 demoBuilt :=
  Reachable.step demoInit 5 demoBuilt
    (Reachable.init demoInit ⟨rfl, fun _ => ⟨rfl, rfl, rfl⟩⟩)
    (SimStep.build demoInit 5 0 [1] rfl rfl rfl
      ⟨by simp, fun j _ => ⟨rfl, by norm_num [demoInit]⟩⟩
      (fun j _ => rfl))

/-- Witness for C7 at the concrete reachable state `demoBuilt`. -/
theorem time_of_adoption_invariant_witness :
    Reachable 0 demoBuilt ∧
    ((∀ j, ((demoBuilt.farmers j).time_of_adoption ≠ none ↔
      ((demoBuilt.farmers j).has_biogas_plant = true ∨
       (demoBuilt.farmers j).contributes_to_biogas_plant = true))) ∧
    (∀ t s' j x, SimStep 0 demoBuilt t s' →
      (demoBuilt.farmers j).time_of_adoption = some x →
      (s'.farmers j).time_of_adoption = some x)) :=
  ⟨demoBuilt_reachable, time_of_adoption_invariant 0 demoBuilt demoBuilt_reachable⟩

/-- The full plant-list invariant: every contributor list is duplicate-free,
everyone on a contributor list carries the `contributes_to_biogas_plant`
flag, and nobody is on two plants' lists. -/
theorem plants_inv (θ : ℚ) (s : SimState) (h : Reachable θ s) :
    (∀ l ∈ s.plants, l.Nodup) ∧
    (∀ j l, l ∈ s.plants → j ∈ l →
      (s.farmers j).contributes_to_biogas_plant = true) ∧
    (∀ j i1 i2, i1 < s.plants.length → i2 < s.plants.length →
      j ∈ s.plants.getD i1 [] → j ∈ s.plants.getD i2 [] → i1 = i2) := by
  induction h with
  | init s hs =>
    refine ⟨?_, ?_, ?_⟩ <;> simp [hs.1]
  | step s t s' hr hstep ih =>
    obtain ⟨ihN, ihC, ihU⟩ := ih
    cases hstep with
    | learn k w =>
      refine ⟨ihN, ?_, ihU⟩
      intro j l hl hj
      simp only []
      by_cases hjk : j = k
      · subst hjk
        simpa using ihC j l hl hj
      · simp only [if_neg hjk]
        exact ihC j l hl hj
    | build c P hhas hcontrib htoa hpool hmark =>
      have hgetD_lt : ∀ i1, i1 < s.plants.length →
          (s.plants ++ [P]).getD i1 [] = s.plants.getD i1 [] :=
        fun i1 h1 => List.getD_append _ _ _ i1 h1
      have hgetD_last : (s.plants ++ [P]).getD s.plants.length [] = P := by
        rw [List.getD_append_right _ _ _ _ le_rfl]
        simp
      have hmem_getD : ∀ i1, i1 < s.plants.length → s.plants.getD i1 [] ∈ s.plants := by
        intro i1 h1
        rw [List.getD_eq_getElem _ _ h1]
        exact List.getElem_mem h1
      refine ⟨?_, ?_, ?_⟩
      · intro l hl
        rcases List.mem_append.mp hl with h | h
        · exact ihN l h
        · rw [List.mem_singleton.mp h]
          exact hpool.1
      · intro j l hl hj
        simp only [commitBuild]
        by_cases hjc : j = c
        · simp [hjc, ownerFarmer]
        · simp only [if_neg hjc]
          by_cases hjP : j ∈ P
          · simp [hjP, markedFarmer]
          · simp only [if_neg hjP]
            rcases List.mem_append.mp hl with h | h
            · exact ihC j l h hj
            · rw [List.mem_singleton.mp h] at hj
              exact absurd hj hjP
      · intro j i1 i2 h1 h2 hj1 hj2
        simp only [commitBuild, List.length_append, List.length_singleton] at h1 h2
        simp only [commitBuild] at hj1 hj2
        rcases Nat.lt_succ_iff_lt_or_eq.mp h1 with h1' | h1' <;>
          rcases Nat.lt_succ_iff_lt_or_eq.mp h2 with h2' | h2'
        · rw [hgetD_lt i1 h1'] at hj1
          rw [hgetD_lt i2 h2'] at hj2
          exact ihU j i1 i2 h1' h2' hj1 hj2
        · rw [hgetD_lt i1 h1'] at hj1
          rw [h2', hgetD_last] at hj2
          have htrue := ihC j _ (hmem_getD i1 h1') hj1
          have hfalse := (hpool.2 j hj2).1
          rw [htrue] at hfalse
          cases hfalse
        · rw [h1', hgetD_last] at hj1
          rw [hgetD_lt i2 h2'] at hj2
          have htrue := ihC j _ (hmem_getD i2 h2') hj2
          have hfalse := (hpool.2 j hj1).1
          rw [htrue] at hfalse
          cases hfalse
        · rw [h1', h2']
    | upgradePlant i P hi hpool hmark =>
      have hmem_getD : ∀ i1, i1 < s.plants.length → s.plants.getD i1 [] ∈ s.plants := by
        intro i1 h1
        rw [List.getD_eq_getElem _ _ h1]
        exact List.getElem_mem h1
      have hgetD_set : ∀ i1, i1 < s.plants.length →
          (s.plants.set i (s.plants.getD i [] ++ P)).getD i1 [] =
            if i = i1 then s.plants.getD i [] ++ P else s.plants.getD i1 [] := by
        intro i1 h1
        rw [List.getD_eq_getElem _ _ (by rw [List.length_set]; exact h1),
          List.getElem_set]
        split
        · rfl
        · rw [List.getD_eq_getElem _ _ h1]
      have hnewNodup : (s.plants.getD i [] ++ P).Nodup := by
        rw [List.nodup_append]
        refine ⟨ihN _ (hmem_getD i hi), hpool.1, ?_⟩
        intro a ha haP
        have htrue := ihC a _ (hmem_getD i hi) ha
        have hfalse := (hpool.2 a haP).1
        rw [htrue] at hfalse
        cases hfalse
      refine ⟨?_, ?_, ?_⟩
      · intro l hl
        rcases List.mem_or_eq_of_mem_set hl with h | h
        · exact ihN l h
        · rw [h]
          exact hnewNodup
      · intro j l hl hj
        simp only [commitUpgrade]
        by_cases hjP : j ∈ P
        · simp [hjP, markedFarmer]
        · simp only [if_neg hjP]
          rcases List.mem_or_eq_of_mem_set hl with h | h
          · exact ihC j l h hj
          · rw [h] at hj
            rcases List.mem_append.mp hj with h' | h'
            · exact ihC j _ (hmem_getD i hi) h'
            · exact absurd h' hjP
      · intro j i1 i2 h1 h2 hj1 hj2
        simp only [commitUpgrade, List.length_set] at h1 h2
        simp only [commitUpgrade] at hj1 hj2
        rw [hgetD_set i1 h1] at hj1
        rw [hgetD_set i2 h2] at hj2
        by_cases hi1 : i = i1 <;> by_cases hi2 : i = i2
        · rw [← hi1, ← hi2]
        · rw [if_pos hi1] at hj1
          rw [if_neg hi2] at hj2
          rcases List.mem_append.mp hj1 with h' | h'
          · rw [← hi1] at h1
            exact hi1.symm.trans (ihU j i i2 h1 h2 h' hj2)
          · have htrue := ihC j _ (hmem_getD i2 h2) hj2
            have hfalse := (hpool.2 j h').1
            rw [htrue] at hfalse
            cases hfalse
        · rw [if_neg hi1] at hj1
          rw [if_pos hi2] at hj2
          rcases List.mem_append.mp hj2 with h' | h'
          · rw [← hi2] at h2
            exact (ihU j i1 i h1 h2 hj1 h').trans hi2
          · have htrue := ihC j _ (hmem_getD i1 h1) hj1
            have hfalse := (hpool.2 j h').1
            rw [htrue] at hfalse
            cases hfalse
        · rw [if_neg hi1] at hj1
          rw [if_neg hi2] at hj2
          exact ihU j i1 i2 h1 h2 hj1 hj2

/-- C8: at every reachable state every farmer is a contributor of at most
one plant — two distinct plants' contributor lists never share a farmer —
because candidate selection excludes farmers already flagged as contributing
and committing a pool immediately flags every pooled neighbor. -/
theorem contributor_in_at_most_one_plant (θ : ℚ) (s : SimState)
    (h : Reachable θ s) :
    ∀ j i1 i2, i1 < s.plants.length → i2 < s.plants.length →
      j ∈ s.plants.getD i1 [] → j ∈ s.plants.getD i2 [] → i1 = i2 :=
  (plants_inv θ s h).2.2

/-- Witness for C8 at the concrete reachable state `demoBuilt`. -/
theorem contributor_in_at_most_one_plant_witness :
    Reachable 0 demoBuilt ∧
    (∀ j i1 i2, i1 < demoBuilt.plants.length → i2 < demoBuilt.plants.length →
      j ∈ demoBuilt.plants.getD i1 [] → j ∈ demoBuilt.plants.getD i2 [] →
      i1 = i2) :=
  ⟨demoBuilt_reachable,
   contributor_in_at_most_one_plant 0 demoBuilt demoBuilt_reachable⟩

end Biogas
